import Mathlib

/-!
Verification of the soko-mushi scan-and-aggregate core
(`src/soko_mushi/core/analyzer.py`, `src/soko_mushi/core/exporter.py`)
against its natural-language specification.

The Python core is embedded shallowly:

* `FileInfo` mirrors the `FileInfo` dataclass (a node of the scanned tree).
* The filesystem seen by one scan is a value of type `Entry`: for each path
  it records whether `path.stat()` succeeds, whether the path is a
  directory, the raw stat size, the lower-cased suffix and the mtime, and
  for a directory whether `iterdir()` yields a listing or raises.
  (`pathlib`'s `iterdir` materialises the listing with one `os.listdir`
  call, so enumeration failure is all-or-nothing: either the full listing
  or an exception before any child is produced.)
* The shared mutable flag `self.is_scanning` is read at three places
  (entry of `_scan_directory`, before each child in the `iterdir` loop,
  and at the completion gate in `_scan_directory_threaded`).  A run of the
  scanner is modelled by numbering those reads 0, 1, 2, ... in program
  order and choosing the moment `stop_scan` lands as `cancelAt :
  Option Nat`: read number `t` returns `true` iff `cancelAt` is `none`
  (never stopped) or `t < k` for `cancelAt = some k`.  Every placement of
  the single `true → false` transition of the flag relative to the reads
  is captured by some `k`.
* `InterruptedError` (the only exception `_scan_directory` lets escape;
  everything else is caught by its `except Exception` arm) is modelled by
  `Except.error ()`.  Note that `InterruptedError` is a subclass of
  `OSError`, so the parent loop's
  `except (PermissionError, FileNotFoundError, OSError)` catches a child's
  `InterruptedError` and `continue`s.
* Python's `sorted(..., key=..., reverse=True)` is a stable descending
  sort; it is modelled by `List.mergeSort` (stable) with the
  corresponding boolean comparison.
* `float` arithmetic in `format_size` and in the percentage column is
  modelled exactly over the integers/rationals involved: division by 1024
  is exact in IEEE-754 binary floating point (the exponent just drops),
  all unit thresholds lie at or below `1024^5 = 2^50 < 2^53` so the unit
  choice agrees with the float code for every input, and Python's
  `format(x, '.Nf')` rounds the float's exact value half-to-even, which
  `roundHalfEven` (used by `pyFormat1`/`pyFormat2`) implements on the
  exact numerator/denominator pair.  Two digit-level caveats of the float
  code are outside the model: for byte counts ≥ 2^53 the initial
  `float(size_bytes)` conversion may itself round, which can shift the
  displayed PB decimal, and the percentage `(size / total) * 100` incurs
  double rounding that in borderline ties can differ from the exact
  two-decimal rendering.  The structural facts proved (unit selection,
  one/two decimal places, the zero cases) and all concrete digit
  equations (inputs < 2^53, exact ratios) are unaffected.
-/

/-- Mirror of the `FileInfo` dataclass of `analyzer.py`: `path`, `name`,
`size`, `is_directory`, `extension`, `modified_time`, `children`.
`modified_time` (a Python float, seconds since the epoch; the degraded
constructor uses the sentinel `0`) is carried as an `Int`. -/
inductive FileInfo where
  | mk (path nm : String) (size : Nat) ( is_dir : Bool) (ext : String)
      (mtime : Int) (children : List FileInfo)

def FileInfo.path : FileInfo → String
  | .mk p _ _ _ _ _ _ => p

def FileInfo.fname : FileInfo → String
  | .mk _ n _ _ _ _ _ => n

def FileInfo.size : FileInfo → Nat
  | .mk _ _ s _ _ _ _ => s

def FileInfo.is_directory : FileInfo → Bool
  | .mk _ _ _ d _ _ _ => d

def FileInfo.extension : FileInfo → String
  | .mk _ _ _ _ e _ _ => e

def FileInfo.modified_time : FileInfo → Int
  | .mk _ _ _ _ _ m _ => m

def FileInfo.children : FileInfo → List FileInfo
  | .mk _ _ _ _ _ _ cs => cs

/-- One path of the filesystem as a single scan observes it.

* `statFail path nm`: `path.stat()` raises (e.g. the entry does not
  exist); `nm` is `path.name`.
* `file path nm ext sz mtime`: stat succeeds, `path.is_dir()` is false,
  raw stat size `sz`, lower-cased suffix `ext`, mtime `mtime`.
* `dir path nm ext ssz mtime listing`: stat succeeds, `path.is_dir()` is
  true, own raw stat size `ssz`; `listing = none` when `iterdir()`
  raises (`PermissionError`/`OSError`), `listing = some es` when it
  returns the entries `es` in directory order. -/
inductive Entry where
  | statFail (path nm : String)
  | file (path nm ext : String) (sz : Nat) (mtime : Int)
  | dir (path nm ext : String) (ssz : Nat) (mtime : Int)
      (listing : Option (List Entry))

/-- `path.name if path.name else str(path)` (analyzer.py line 88; the
degraded branch's `path.name or str(path)` on line 132 is the same
function). -/
def pyName (path nm : String) : String :=
  if nm = "" then path else nm

/-- The degraded node built by the `except Exception` arm of
`_scan_directory` (analyzer.py lines 128-137): zero size, not a
directory, empty extension, mtime sentinel `0`, no children. -/
def degradedNode (path nm : String) : FileInfo :=
  .mk path (pyName path nm) 0 false "" 0 []

/-- One read of `self.is_scanning`, the `t`-th read of the run: `true`
unless `stop_scan` has already landed (`cancelAt = some k` places the
flag's `true → false` transition just before read number `k`). -/
def flagRead (cancelAt : Option Nat) (t : Nat) : Bool :=
  match cancelAt with
  | none => true
  | some k => t < k

/-- Sum of the sizes of a list of nodes (the `total_size` accumulator of
the `iterdir` loop). -/
def sumSizes (cs : List FileInfo) : Nat :=
  cs.foldl (fun acc c => acc + c.size) 0

mutual

/-- `DiskAnalyzer._scan_directory` (analyzer.py lines 81-137) on entry
`e`, with `t` reads of `is_scanning` already performed.  Returns the
result (`Except.error ()` standing for the `InterruptedError` raised at
line 84) and the new read count.  The flag read at the loop head (line
106) and the recursive calls are in `scanKids`. -/
def scanDir (cancelAt : Option Nat) (t : Nat) (e : Entry) :
    Except Unit FileInfo × Nat :=
  if flagRead cancelAt t then
    match e with
    | .statFail p nm => (.ok (degradedNode p nm), t + 1)
    | .file p nm ext sz mt => (.ok (.mk p (pyName p nm) sz false ext mt []), t + 1)
    | .dir p nm ext ssz mt none =>
        -- `iterdir()` raises: caught at line 119, size falls back to the
        -- directory's own raw stat size, children stay empty.
        (.ok (.mk p (pyName p nm) ssz true ext mt []), t + 1)
    | .dir p nm ext _ssz mt (some es) =>
        let r := scanKids cancelAt (t + 1) es
        (.ok (.mk p (pyName p nm) (sumSizes r.1) true ext mt r.1), r.2)
  else
    (.error (), t + 1)

/-- The `for child_path in path.iterdir():` loop (analyzer.py lines
105-115): flag check then `break` (line 106-107); recurse; a child's
`InterruptedError` is caught by the `except (..., OSError)` arm and the
loop `continue`s (lines 113-115); a normal child is appended and its size
accumulated (lines 111-112). -/
def scanKids (cancelAt : Option Nat) (t : Nat) (es : List Entry) :
    List FileInfo × Nat :=
  match es with
  | [] => ([], t)
  | e :: rest =>
      if flagRead cancelAt t then
        match scanDir cancelAt (t + 1) e with
        | (.error _, t') => scanKids cancelAt t' rest
        | (.ok ci, t') =>
            let r := scanKids cancelAt t' rest
            (ci :: r.1, r.2)
      else
        ([], t + 1)

end

mutual

/-- The tree `_scan_directory` returns when no cancellation is ever
observed (every read of `is_scanning` yields `true`). -/
def scanPure : Entry → FileInfo
  | .statFail p nm => degradedNode p nm
  | .file p nm ext sz mt => .mk p (pyName p nm) sz false ext mt []
  | .dir p nm ext ssz mt none => .mk p (pyName p nm) ssz true ext mt []
  | .dir p nm ext _ mt (some es) =>
      .mk p (pyName p nm) (sumSizes (scanPureList es)) true ext mt
        (scanPureList es)

/-- `scanPure` mapped over a listing. -/
def scanPureList : List Entry → List FileInfo
  | [] => []
  | e :: rest => scanPure e :: scanPureList rest

end

mutual

/-- Number of reads of `is_scanning` an uncancelled `_scan_directory`
performs on `e` (one at entry plus the loop's reads). -/
def ticksE : Entry → Nat
  | .statFail _ _ => 1
  | .file _ _ _ _ _ => 1
  | .dir _ _ _ _ _ none => 1
  | .dir _ _ _ _ _ (some es) => 1 + ticksL es

/-- Reads of `is_scanning` the uncancelled `iterdir` loop performs on a
listing (one per child at the loop head, plus the child's own reads). -/
def ticksL : List Entry → Nat
  | [] => 0
  | e :: rest => 1 + ticksE e + ticksL rest

end

/-- Which callback one scan run delivers. -/
inductive Outcome where
  | complete (root : FileInfo)
  | err (msg : String)
  | nothing

/-- `DiskAnalyzer._scan_directory_threaded` (analyzer.py lines 69-79)
with both callbacks installed: run the walk; an escaping exception (only
the root-level `InterruptedError("Scan was stopped")` can escape) is
reported as `error_callback(f"Scan error: {str(e)}")`; otherwise the
completion gate `if self.completion_callback and self.is_scanning:`
(line 73) reads the flag once more and delivers the tree only when it is
still up. -/
def scanThreadedOutcome (cancelAt : Option Nat) (e : Entry) : Outcome :=
  match scanDir cancelAt 0 e with
  | (.error _, _) => .err "Scan error: Scan was stopped"
  | (.ok info, t) => if flagRead cancelAt t then .complete info else .nothing

/-- `true` on `Outcome.complete _`. -/
def Outcome.isComplete : Outcome → Bool
  | .complete _ => true
  | _ => false

/-- `true` when the walk returned a tree (reached the root's `return`). -/
def walkReturns (cancelAt : Option Nat) (e : Entry) : Bool :=
  match scanDir cancelAt 0 e with
  | (.ok _, _) => true
  | (.error _, _) => false

/-! ## Aggregator (`get_file_type_stats`, `get_largest_items`) -/

mutual

/-- The inner `collect_items` of `DiskAnalyzer.get_largest_items`
(analyzer.py lines 205-208): append the node, then recurse into its
children — the pre-order node list. -/
def collect_items : FileInfo → List FileInfo
  | .mk p n s d e m cs => .mk p n s d e m cs :: collect_itemsL cs

/-- `collect_items` over a child list, concatenated in order. -/
def collect_itemsL : List FileInfo → List FileInfo
  | [] => []
  | c :: rest => collect_items c ++ collect_itemsL rest

end

/-- The comparison under Python's
`sorted(all_items, key=lambda x: x.size, reverse=True)`: a stable
descending sort by `size`. -/
def sizeDescLE (a b : FileInfo) : Bool :=
  b.size ≤ a.size

/-- Python's slice `l[:count]` for an `int` count: a non-negative count
keeps the first `count` elements, a negative count drops the last
`|count|` (`l[:-k]` keeps the first `max(0, len - k)`). -/
def pySlice {α : Type} (l : List α) (count : Int) : List α :=
  if 0 ≤ count then l.take count.toNat
  else l.take (l.length - count.natAbs)

/-- `DiskAnalyzer.get_largest_items` (analyzer.py lines 200-213):
pre-order collection, stable descending sort by size, slice to `count`. -/
def get_largest_items (root_info : FileInfo) (count : Int) : List FileInfo :=
  pySlice ((collect_items root_info).mergeSort sizeDescLE) count

/-- `info.extension or "No extension"` (analyzer.py line 182): Python's
`or` falls through on the falsy empty string. -/
def bucketName (info : FileInfo) : String :=
  if info.extension = "" then "No extension" else info.extension

/-- One stats bucket `ext ↦ {count, size}`, with its dict key. -/
structure Bucket where
  ext : String
  cnt : Nat
  sz : Nat

/-- The dict update of analyzer.py lines 182-186 on an association list
in insertion order: a missing key is appended at the end (Python dicts
preserve insertion order), an existing key is updated in place. -/
def addStat (stats : List Bucket) (ext : String) (sz : Nat) : List Bucket :=
  match stats with
  | [] => [⟨ext, 1, sz⟩]
  | b :: rest =>
      if b.ext = ext then ⟨b.ext, b.cnt + 1, b.sz + sz⟩ :: rest
      else b :: addStat rest ext sz

mutual

/-- The inner `collect_stats` of `DiskAnalyzer.get_file_type_stats`
(analyzer.py lines 180-189), with the `stats` dict threaded as an
accumulator: a non-directory node contributes to its bucket, then the
children are visited in order (pre-order traversal). -/
def collect_stats (acc : List Bucket) : FileInfo → List Bucket
  | .mk p n s d e m cs =>
      let acc' := if d then acc
        else addStat acc (bucketName (.mk p n s d e m cs)) s
      collect_statsL acc' cs

/-- `collect_stats` folded over a child list. -/
def collect_statsL (acc : List Bucket) : List FileInfo → List Bucket
  | [] => acc
  | c :: rest => collect_statsL (collect_stats acc c) rest

end

/-- The comparison under
`sorted(stats.items(), key=lambda x: x[1]["size"], reverse=True)`
(analyzer.py lines 194-196): stable descending by bucket size. -/
def bucketDescLE (a b : Bucket) : Bool :=
  b.sz ≤ a.sz

/-- `DiskAnalyzer.get_file_type_stats` (analyzer.py lines 175-198):
collect per-extension buckets in pre-order/insertion order, then rebuild
the dict sorted descending by total size (stable). -/
def get_file_type_stats (root_info : FileInfo) : List Bucket :=
  (collect_stats [] root_info).mergeSort bucketDescLE

/-! ## SizeFormatter (`format_size`) -/

/-- The unit list of analyzer.py line 162. -/
def fsUnits : List String := ["B", "KB", "MB", "GB", "TB", "PB"]

/-- The `while size >= 1024 and unit_index < len(units) - 1:` loop
(analyzer.py lines 166-168), tracking only `unit_index`: after `i`
divisions the float holds exactly `size_bytes / 1024^i` (division by
1024 is exact in IEEE-754), so the guard `size >= 1024` is
`1024^(i+1) ≤ size_bytes`; `rem` counts the divisions still allowed by
`unit_index < 5`. -/
def fsIdxAux (n : Nat) : Nat → Nat → Nat
  | i, 0 => i
  | i, rem + 1 => if 1024 ^ (i + 1) ≤ n then fsIdxAux n (i + 1) rem else i

/-- The final `unit_index` of `format_size`'s loop. -/
def fsIdx (n : Nat) : Nat :=
  fsIdxAux n 0 5

/-- Round `num / den` to the nearest integer, ties to even — what
Python's `format` does to the exact value of a binary float (`den > 0`
expected). -/
def roundHalfEven (num den : Nat) : Nat :=
  let q := num / den
  let r := num % den
  if 2 * r < den then q
  else if den < 2 * r then q + 1
  else if q % 2 = 0 then q else q + 1

/-- `f"{x:.1f}"` for the exact nonnegative value `num / den`: one digit
after the decimal point, rounding half to even. -/
def pyFormat1 (num den : Nat) : String :=
  let q := roundHalfEven (num * 10) den
  toString (q / 10) ++ "." ++ toString (q % 10)

/-- `DiskAnalyzer.format_size` (analyzer.py lines 156-173).  The float
`size` equals `size_bytes / 1024^unit_index` exactly throughout the unit
range (all boundaries lie at or below `1024^5 = 2^50 < 2^53`), so the
integer branch prints `size_bytes` itself and the scaled branch prints
the exact quotient to one decimal. -/
def format_size (size_bytes : Nat) : String :=
  if size_bytes = 0 then "0 B"
  else
    let i := fsIdx size_bytes
    if i = 0 then toString size_bytes ++ " B"
    else pyFormat1 size_bytes (1024 ^ i) ++ " " ++ fsUnits.getD i ""

/-! ## Exporter (`exporter.py`) -/

/-- Left-pad to two digits (`r < 100` in use). -/
def pad2 (r : Nat) : String :=
  if r < 10 then "0" ++ toString r else toString r

/-- `f"{x:.2f}"` for the exact nonnegative value `num / den`: two digits
after the decimal point, rounding half to even. -/
def pyFormat2 (num den : Nat) : String :=
  let q := roundHalfEven (num * 100) den
  toString (q / 100) ++ "." ++ pad2 (q % 100)

/-- The percentage cell of `ReportExporter.export_file_types_csv`
(exporter.py lines 92-100):
`percentage = (data["size"] / total_size * 100) if total_size > 0 else 0`
rendered as `f"{percentage:.2f}%"`.  The true-branch value is the exact
rational `sz * 100 / total`. -/
def percentage_cell (sz total : Nat) : String :=
  if 0 < total then pyFormat2 (sz * 100) total ++ "%"
  else pyFormat2 0 1 ++ "%"

/-- One data row of the file-type CSV (exporter.py lines 93-101):
extension, count, size, formatted size, percentage of total. -/
structure TypeRow where
  ext : String
  cnt : Nat
  sz : Nat
  sz_fmt : String
  pct : String

/-- The data rows `ReportExporter.export_file_types_csv` writes after the
header (exporter.py lines 84-101); `total_size` is `root_info.size`. -/
def export_file_types_rows (root_info : FileInfo) : List TypeRow :=
  (get_file_type_stats root_info).map fun b =>
    ⟨b.ext, b.cnt, b.sz, format_size b.sz, percentage_cell b.sz root_info.size⟩

/-- One row of the flat CSV (exporter.py lines 61-70); `is_dir_cell` is
the rendered `"Yes"/"No"`, `mtime` the raw timestamp (its ISO-8601
rendering is a pure function of it and of nothing else in the tree). -/
structure FlatRow where
  path : String
  nm : String
  size : Nat
  size_fmt : String
  is_dir_cell : String
  ext : String
  depth : Nat
  mtime : Int

mutual

/-- The inner `collect_items` of `ReportExporter.export_to_csv`
(exporter.py lines 60-73): one row per node, pre-order, children at
`depth + 1`. -/
def flat_rows (d : Nat) : FileInfo → List FlatRow
  | .mk p n s dir e m cs =>
      ⟨p, n, s, format_size s, if dir then "Yes" else "No", e, d, m⟩
        :: flat_rowsL (d + 1) cs

/-- `flat_rows` over a child list. -/
def flat_rowsL (d : Nat) : List FileInfo → List FlatRow
  | [] => []
  | c :: rest => flat_rows d c ++ flat_rowsL d rest

end

/-- One entry of the JSON report's `largest_items` array (exporter.py
lines 41-47). -/
structure LargeItem where
  path : String
  nm : String
  size : Nat
  size_fmt : String
  isDir : Bool

/-- The rows `ReportExporter.export_largest_items_csv` writes after the
header (exporter.py lines 104-120): rank from 1, path, name, size,
formatted size, `"Directory"/"File"`. -/
def export_largest_items_rows (root_info : FileInfo) (count : Int) :
    List (Nat × String × String × Nat × String × String) :=
  ((get_largest_items root_info count).enumFrom 1).map fun it =>
    (it.1, it.2.path, it.2.fname, it.2.size, format_size it.2.size,
      if it.2.is_directory then "Directory" else "File")

/-- The recursive dictionary `file_info_to_dict` builds for one node
(exporter.py lines 20-31): the node's fields plus the formatted size;
the raw timestamp stands in for both `modified_time` and its ISO
rendering (the latter is a function of it alone). -/
inductive JsonTree where
  | mk (path nm : String) (size : Nat) (size_fmt : String) (dirFlag : Bool)
      (ext : String) (mtime : Int) (children : List JsonTree)

mutual

/-- `file_info_to_dict` of `ReportExporter.export_to_json` (exporter.py
lines 20-31), keeping the raw timestamp alongside (its ISO rendering is
a function of it alone). -/
def file_info_to_dict : FileInfo → JsonTree
  | .mk p n s d e m cs =>
      .mk p n s (format_size s) d e m (file_info_to_dictL cs)

/-- `file_info_to_dict` over a child list. -/
def file_info_to_dictL : List FileInfo → List JsonTree
  | [] => []
  | c :: rest => file_info_to_dict c :: file_info_to_dictL rest

end

/-- The tree-dependent content of the JSON report (exporter.py lines
33-50); `scan_timestamp` (wall clock, not a function of the tree) is
omitted. -/
structure JsonReport where
  root_path : String
  total_size : Nat
  total_size_fmt : String
  file_tree : JsonTree
  file_type_stats : List Bucket
  largest_items : List LargeItem

/-- The report `ReportExporter.export_to_json` serializes. -/
def export_to_json_data (root_info : FileInfo) : JsonReport :=
  ⟨root_info.path, root_info.size, format_size root_info.size,
    file_info_to_dict root_info, get_file_type_stats root_info,
    (get_largest_items root_info 50).map fun it =>
      ⟨it.path, it.fname, it.size, format_size it.size, it.is_directory⟩⟩

mutual

/-- Every entry the uncancelled walk visits: the entry itself, then —
for a directory whose enumeration succeeds — everything under its
listing. -/
def allEntries : Entry → List Entry
  | .statFail p nm => [.statFail p nm]
  | .file p nm ext sz mt => [.file p nm ext sz mt]
  | .dir p nm ext ssz mt none => [.dir p nm ext ssz mt none]
  | .dir p nm ext ssz mt (some es) =>
      .dir p nm ext ssz mt (some es) :: allEntriesL es

/-- `allEntries` over a listing. -/
def allEntriesL : List Entry → List Entry
  | [] => []
  | e :: rest => allEntries e ++ allEntriesL rest

end

/-- One read-only call of the Aggregator/Exporter layer on a completed
tree (`get_file_type_stats`, `get_largest_items`, and the four export
functions' tree-dependent computations). -/
inductive CoreCall where
  | stats
  | largest (count : Int)
  | jsonReport
  | flatCsv
  | typesCsv
  | largestCsv (count : Int)

/-- The tree as one Aggregator/Exporter call leaves it.  Each source
function only reads node attributes (`info.extension`, `info.size`,
`info.children`, ...) into locals of its own; no statement in
analyzer.py lines 175-213 or exporter.py assigns to an attribute of a
node, so the embedded call hands the tree back as received while
computing its output from it. -/
def runCall : CoreCall → FileInfo → FileInfo
  | .stats, info => (get_file_type_stats info, info).2
  | .largest n, info => (get_largest_items info n, info).2
  | .jsonReport, info => (export_to_json_data info, info).2
  | .flatCsv, info => (flat_rows 0 info, info).2
  | .typesCsv, info => (export_file_types_rows info, info).2
  | .largestCsv n, info => (export_largest_items_rows info n, info).2

/-! ## Scanner lemmas -/

theorem ticksE_pos (e : Entry) : 1 ≤ ticksE e := by
  cases e with
  | statFail p nm => simp [ticksE]
  | file p nm ext sz mt => simp [ticksE]
  | dir p nm ext ssz mt listing => cases listing <;> simp [ticksE]

mutual

/-- With no cancellation the walk returns the pure tree and performs
`ticksE e` flag reads. -/
theorem scanDir_none (t : Nat) (e : Entry) :
    scanDir none t e = (.ok (scanPure e), t + ticksE e) := by
  cases e with
  | statFail p nm => simp [scanDir, flagRead, scanPure, ticksE]
  | file p nm ext sz mt => simp [scanDir, flagRead, scanPure, ticksE]
  | dir p nm ext ssz mt listing =>
      cases listing with
      | none => simp [scanDir, flagRead, scanPure, ticksE]
      | some es =>
          have h := scanKids_none (t + 1) es
          simp [scanDir, flagRead, scanPure, ticksE, h]
          omega

theorem scanKids_none (t : Nat) (es : List Entry) :
    scanKids none t es = (scanPureList es, t + ticksL es) := by
  cases es with
  | nil => simp [scanKids, scanPureList, ticksL]
  | cons e rest =>
      have h1 := scanDir_none (t + 1) e
      have h2 := scanKids_none (t + 1 + ticksE e) rest
      simp [scanKids, flagRead, scanPureList, ticksL, h1, h2]
      omega

end

/-- Once the root's entry check has passed (`0 < k`), every branch of
`_scan_directory` returns a tree: the only escaping exception is the
entry check's `InterruptedError`. -/
theorem scanDir_ok_of_lt (e : Entry) (t k : Nat) (h : t < k) :
    ∃ info t', scanDir (some k) t e = (.ok info, t') := by
  have hf : flagRead (some k) t = true := by simp [flagRead]; omega
  cases e with
  | statFail p nm => exact ⟨degradedNode p nm, t + 1, by simp [scanDir, hf]⟩
  | file p nm ext sz mt =>
      exact ⟨.mk p (pyName p nm) sz false ext mt [], t + 1, by simp [scanDir, hf]⟩
  | dir p nm ext ssz mt listing =>
      cases listing with
      | none => exact ⟨.mk p (pyName p nm) ssz true ext mt [], t + 1, by simp [scanDir, hf]⟩
      | some es =>
          exact ⟨.mk p (pyName p nm) (sumSizes (scanKids (some k) (t + 1) es).1)
            true ext mt (scanKids (some k) (t + 1) es).1,
            (scanKids (some k) (t + 1) es).2, by simp [scanDir, hf]⟩

/-- Unfolding of `_scan_directory` when the entry flag check fails: the
`InterruptedError` of line 84. -/
theorem scanDir_flag_false (cancelAt : Option Nat) (t : Nat) (e : Entry)
    (h : flagRead cancelAt t = false) :
    scanDir cancelAt t e = (.error (), t + 1) := by
  cases e with
  | statFail p nm =>
      rw [show scanDir cancelAt t (.statFail p nm) =
        (if flagRead cancelAt t then
          ((.ok (degradedNode p nm), t + 1) : Except Unit FileInfo × Nat)
         else (.error (), t + 1)) from rfl, h]
      simp
  | file p nm ext sz mt =>
      rw [show scanDir cancelAt t (.file p nm ext sz mt) =
        (if flagRead cancelAt t then
          ((.ok (.mk p (pyName p nm) sz false ext mt []), t + 1) :
            Except Unit FileInfo × Nat)
         else (.error (), t + 1)) from rfl, h]
      simp
  | dir p nm ext ssz mt listing =>
      cases listing with
      | none =>
          rw [show scanDir cancelAt t (.dir p nm ext ssz mt none) =
            (if flagRead cancelAt t then
              ((.ok (.mk p (pyName p nm) ssz true ext mt []), t + 1) :
                Except Unit FileInfo × Nat)
             else (.error (), t + 1)) from rfl, h]
          simp
      | some es =>
          rw [show scanDir cancelAt t (.dir p nm ext ssz mt (some es)) =
            (if flagRead cancelAt t then
              ((.ok (.mk p (pyName p nm)
                  (sumSizes (scanKids cancelAt (t + 1) es).1) true ext mt
                  (scanKids cancelAt (t + 1) es).1),
                (scanKids cancelAt (t + 1) es).2) : Except Unit FileInfo × Nat)
             else (.error (), t + 1)) from rfl, h]
          simp

/-- Unfolding of `_scan_directory` on a directory with a successful
listing, once the entry check has passed. -/
theorem scanDir_dir_some (cancelAt : Option Nat) (t : Nat)
    (p nm ext : String) (ssz : Nat) (mt : Int) (es : List Entry)
    (h : flagRead cancelAt t = true) :
    scanDir cancelAt t (.dir p nm ext ssz mt (some es)) =
      (.ok (.mk p (pyName p nm) (sumSizes (scanKids cancelAt (t + 1) es).1)
        true ext mt (scanKids cancelAt (t + 1) es).1),
        (scanKids cancelAt (t + 1) es).2) := by
  rw [show scanDir cancelAt t (.dir p nm ext ssz mt (some es)) =
    (if flagRead cancelAt t then
      ((.ok (.mk p (pyName p nm)
          (sumSizes (scanKids cancelAt (t + 1) es).1) true ext mt
          (scanKids cancelAt (t + 1) es).1),
        (scanKids cancelAt (t + 1) es).2) : Except Unit FileInfo × Nat)
     else (.error (), t + 1)) from rfl, h]
  simp

/-- Unfolding of the `iterdir` loop when its flag check fails: `break`
with the children collected so far. -/
theorem scanKids_cons_flag_false (cancelAt : Option Nat) (t : Nat)
    (e : Entry) (rest : List Entry) (h : flagRead cancelAt t = false) :
    scanKids cancelAt t (e :: rest) = ([], t + 1) := by
  simp [scanKids, h]

/-- Unfolding of the `iterdir` loop when the child raises
`InterruptedError`: the `except (..., OSError)` arm `continue`s. -/
theorem scanKids_cons_err (cancelAt : Option Nat) (t t' : Nat) (u : Unit)
    (e : Entry) (rest : List Entry) (h : flagRead cancelAt t = true)
    (hm : scanDir cancelAt (t + 1) e = (.error u, t')) :
    scanKids cancelAt t (e :: rest) = scanKids cancelAt t' rest := by
  simp [scanKids, h, hm]

/-- Unfolding of the `iterdir` loop when the child returns a node: it is
appended and the loop continues. -/
theorem scanKids_cons_ok (cancelAt : Option Nat) (t t' : Nat)
    (ci : FileInfo) (e : Entry) (rest : List Entry)
    (h : flagRead cancelAt t = true)
    (hm : scanDir cancelAt (t + 1) e = (.ok ci, t')) :
    scanKids cancelAt t (e :: rest) =
      (ci :: (scanKids cancelAt t' rest).1, (scanKids cancelAt t' rest).2) := by
  simp [scanKids, h, hm]

mutual

/-- Lower bound on the flag-read counter after a possibly-cancelled
walk: the walk cannot stop early without first observing the flag down,
so the counter reaches `k` unless the walk finishes with its full budget
of reads. -/
theorem scanDir_tick_ge (e : Entry) (t k : Nat) :
    min k (t + ticksE e) ≤ (scanDir (some k) t e).2 := by
  by_cases h : t < k
  · have hf : flagRead (some k) t = true := by simp [flagRead]; omega
    cases e with
    | statFail p nm => simp [scanDir, hf, ticksE]
    | file p nm ext sz mt => simp [scanDir, hf, ticksE]
    | dir p nm ext ssz mt listing =>
        cases listing with
        | none => simp [scanDir, hf, ticksE]
        | some es =>
            have ih := scanKids_tick_ge es (t + 1) k
            rw [scanDir_dir_some (some k) t p nm ext ssz mt es hf]
            simp only [ticksE]
            omega
  · have hf : flagRead (some k) t = false := by simp [flagRead]; omega
    rw [scanDir_flag_false (some k) t e hf]
    have := ticksE_pos e
    simp only
    omega
termination_by sizeOf e

theorem scanKids_tick_ge (es : List Entry) (t k : Nat) :
    min k (t + ticksL es) ≤ (scanKids (some k) t es).2 := by
  cases es with
  | nil => simp [scanKids, ticksL]
  | cons e rest =>
      by_cases h : t < k
      · have hf : flagRead (some k) t = true := by simp [flagRead]; omega
        have ihe := scanDir_tick_ge e (t + 1) k
        cases hm : scanDir (some k) (t + 1) e with
        | mk r t2 =>
            rw [hm] at ihe
            simp only at ihe
            cases r with
            | error u =>
                have ihr := scanKids_tick_ge rest t2 k
                rw [scanKids_cons_err (some k) t t2 u e rest hf hm]
                simp only [ticksL]
                omega
            | ok ci =>
                have ihr := scanKids_tick_ge rest t2 k
                rw [scanKids_cons_ok (some k) t t2 ci e rest hf hm]
                simp only [ticksL]
                omega
      · have hf : flagRead (some k) t = false := by simp [flagRead]; omega
        rw [scanKids_cons_flag_false (some k) t e rest hf]
        simp only
        omega
termination_by sizeOf es

end

mutual

/-- As long as the cancellation point lies beyond every flag read of the
walk, the cancelled and the uncancelled runs coincide. -/
theorem scanDir_some_full (e : Entry) (t k : Nat) (h : t + ticksE e ≤ k) :
    scanDir (some k) t e = (.ok (scanPure e), t + ticksE e) := by
  have hf : flagRead (some k) t = true := by
    have := ticksE_pos e
    simp [flagRead]; omega
  cases e with
  | statFail p nm => simp [scanDir, hf, scanPure, ticksE]
  | file p nm ext sz mt => simp [scanDir, hf, scanPure, ticksE]
  | dir p nm ext ssz mt listing =>
      cases listing with
      | none => simp [scanDir, hf, scanPure, ticksE]
      | some es =>
          have hk : t + 1 + ticksL es ≤ k := by
            simp only [ticksE] at h; omega
          have ih := scanKids_some_full es (t + 1) k hk
          rw [scanDir_dir_some (some k) t p nm ext ssz mt es hf, ih]
          simp [scanPure, ticksE]
          omega
termination_by sizeOf e

theorem scanKids_some_full (es : List Entry) (t k : Nat)
    (h : t + ticksL es ≤ k) :
    scanKids (some k) t es = (scanPureList es, t + ticksL es) := by
  cases es with
  | nil => simp [scanKids, scanPureList, ticksL]
  | cons e rest =>
      have hf : flagRead (some k) t = true := by
        simp only [ticksL] at h
        have := ticksE_pos e
        simp [flagRead]; omega
      have he : t + 1 + ticksE e ≤ k := by
        simp only [ticksL] at h; omega
      have ihe := scanDir_some_full e (t + 1) k he
      have hr : t + 1 + ticksE e + ticksL rest ≤ k := by
        simp only [ticksL] at h; omega
      have ihr := scanKids_some_full rest (t + 1 + ticksE e) k hr
      rw [scanKids_cons_ok (some k) t (t + 1 + ticksE e) (scanPure e) e rest hf ihe, ihr]
      simp [scanPureList, ticksL]
      omega
termination_by sizeOf es

end

/-- An uncancelled scan always completes, delivering the pure tree. -/
theorem scanThreaded_none (e : Entry) :
    scanThreadedOutcome none e = .complete (scanPure e) := by
  simp [scanThreadedOutcome, scanDir_none, flagRead]

/-- A stop that lands before the root's entry check (read 0) makes the
root-level `_scan_directory` raise `InterruptedError("Scan was stopped")`,
which the worker's generic `except Exception` arm reports through the
error callback. -/
theorem scanThreaded_zero (e : Entry) :
    scanThreadedOutcome (some 0) e = .err "Scan error: Scan was stopped" := by
  have h := scanDir_flag_false (some 0) 0 e (by simp [flagRead])
  simp [scanThreadedOutcome, h]

/-- A stop observed after the root's entry check but no later than the
last flag read of the walk: the walk still returns a (truncated) tree,
but the completion gate (line 73) finds `is_scanning` down and delivers
nothing. -/
theorem scanThreaded_mid (e : Entry) (k : Nat) (h1 : 1 ≤ k)
    (h2 : k ≤ ticksE e) : scanThreadedOutcome (some k) e = .nothing := by
  obtain ⟨info, t', hm⟩ := scanDir_ok_of_lt e 0 k (by omega)
  have hg := scanDir_tick_ge e 0 k
  rw [hm] at hg
  simp only at hg
  have hk : k ≤ t' := by omega
  have hgate : flagRead (some k) t' = false := by simp [flagRead]; omega
  simp [scanThreadedOutcome, hm, hgate]

/-- A stop that lands only after the walk's last flag read: the full
tree is delivered through the completion callback. -/
theorem scanThreaded_late (e : Entry) (k : Nat) (h : ticksE e < k) :
    scanThreadedOutcome (some k) e = .complete (scanPure e) := by
  have hm := scanDir_some_full e 0 k (by omega)
  simp only [Nat.zero_add] at hm
  have hgate : flagRead (some k) (ticksE e) = true := by simp [flagRead]; omega
  simp [scanThreadedOutcome, hm, hgate]

/-- Once the root's entry check passes, the walk reaches the root's
return point no matter where cancellation lands. -/
theorem walkReturns_of_pos (e : Entry) (k : Nat) (h : 1 ≤ k) :
    walkReturns (some k) e = true := by
  obtain ⟨info, t', hm⟩ := scanDir_ok_of_lt e 0 k (by omega)
  simp [walkReturns, hm]

/-! ## Claims C1-C3 (scan outcome under root failure and cancellation) -/

/-- A small filesystem for concrete runs: a root directory holding one
regular file. -/
def exRoot : Entry :=
  .dir "/r" "r" "" 4096 10 (some [.file "/r/a.txt" "a.txt" ".txt" 5 7])

/-- Claim C1, counterexample.  On a root that cannot be stat'd the
uncancelled scan does NOT report an error: the walk degrades the root to
a minimal node and the completion callback delivers that one-node tree,
contradicting "the failure is reported via the error callback and no
tree is delivered". -/
theorem claim_C1_cex :
    scanThreadedOutcome none (.statFail "/missing" "missing") =
      .complete (.mk "/missing" "missing" 0 false "" 0 []) := rfl

/-- Claim C1, amended.  If the root path cannot be stat'd, the scan is
not treated as fatal: `_scan_directory`'s `except Exception` arm turns
the root into the degraded node (size 0, `is_directory = false`, empty
extension, mtime sentinel, no children) and an uncancelled run delivers
exactly that tree through the completion callback — the error callback
is never invoked for a stat failure. -/
theorem claim_C1_root_stat_failure (p nm : String) :
    scanThreadedOutcome none (.statFail p nm) =
      .complete (degradedNode p nm) := by
  rw [scanThreaded_none]
  simp [scanPure]

/-- Claim C2, counterexample.  Scanning `exRoot` with the stop landing
at flag read 1 (inside the walk, so the tree is truncated): the walk
still reaches the root's return point, yet the outcome is `nothing` —
the completion callback is NOT invoked with the partial tree. -/
theorem claim_C2_cex :
    walkReturns (some 1) exRoot = true ∧
      scanThreadedOutcome (some 1) exRoot = Outcome.nothing ∧
      (scanThreadedOutcome (some 1) exRoot).isComplete = false :=
  ⟨rfl, rfl, rfl⟩

/-- Claim C2, amended.  When `stop_scan` is observed while the walk is
in flight (some flag read of the walk, reads `1 ≤ k ≤ ticksE e`, returns
false), the walk does reach the root's return point with a truncated
tree, but the completion gate `if self.completion_callback and
self.is_scanning:` (analyzer.py line 73) finds the flag down: no
callback fires and the partial tree is discarded — cancellation
discards, it does not merely truncate. -/
theorem claim_C2_cancel_discards (e : Entry) (k : Nat) :
    (1 ≤ k → walkReturns (some k) e = true) ∧
      (1 ≤ k → k ≤ ticksE e → scanThreadedOutcome (some k) e = .nothing) :=
  ⟨fun h => walkReturns_of_pos e k h,
   fun h1 h2 => scanThreaded_mid e k h1 h2⟩

/-- Claim C3, counterexample.  A scan stopped before root processing
starts (the stop lands before flag read 0) does NOT produce "no
callback": the root-level `InterruptedError` escapes to the worker's
`except Exception` arm, which invokes the error callback with
"Scan error: Scan was stopped" — cancellation IS reported as an
error. -/
theorem claim_C3_cex :
    scanThreadedOutcome (some 0) exRoot =
      .err "Scan error: Scan was stopped" := rfl

/-- Claim C3, amended.  The outcome of a stopped scan, by where the stop
is first observed (`k` = index of the first flag read that sees it):
observed at the root's entry check (`k = 0`) — the error callback fires
with "Scan error: Scan was stopped"; observed at any later read of the
walk (`1 ≤ k ≤ ticksE e`) — no callback fires at all (the completion
gate suppresses the truncated tree); never observed during the walk or
its gate (`ticksE e < k`) — the completion callback delivers the full
tree.  In particular a cancelled scan never completes with a partial
tree, and the error callback IS invoked when the stop lands before root
processing. -/
theorem claim_C3_cancel_outcome (e : Entry) (k : Nat) :
    (k = 0 →
      scanThreadedOutcome (some k) e = .err "Scan error: Scan was stopped") ∧
    (1 ≤ k → k ≤ ticksE e → scanThreadedOutcome (some k) e = .nothing) ∧
    (ticksE e < k → scanThreadedOutcome (some k) e = .complete (scanPure e)) :=
  ⟨fun h => h ▸ scanThreaded_zero e,
   fun h1 h2 => scanThreaded_mid e k h1 h2,
   fun h => scanThreaded_late e k h⟩

/-! ## Claim C4 (directory size invariant) -/

mutual

/-- The nodes of an uncancelled scan's tree, in pre-order, are exactly
the visited entries' images under `scanPure`. -/
theorem collect_scanPure (e : Entry) :
    collect_items (scanPure e) = (allEntries e).map scanPure := by
  cases e with
  | statFail p nm =>
      simp [scanPure, degradedNode, collect_items, collect_itemsL, allEntries]
  | file p nm ext sz mt =>
      simp [scanPure, collect_items, collect_itemsL, allEntries]
  | dir p nm ext ssz mt listing =>
      cases listing with
      | none => simp [scanPure, collect_items, collect_itemsL, allEntries]
      | some es =>
          have ih := collect_scanPureL es
          simp [scanPure, collect_items, allEntries, ih]
termination_by sizeOf e

theorem collect_scanPureL (es : List Entry) :
    collect_itemsL (scanPureList es) = (allEntriesL es).map scanPure := by
  cases es with
  | nil => simp [scanPureList, collect_itemsL, allEntriesL]
  | cons e rest =>
      have ihe := collect_scanPure e
      have ihr := collect_scanPureL rest
      simp [scanPureList, collect_itemsL, allEntriesL, ihe, ihr]
termination_by sizeOf es

end

/-- Claim C4.  In a tree delivered by the scanner (an uncancelled walk —
by `claim_C3_cancel_outcome` these are the only trees the completion
callback ever delivers, as `scanPure e`):

* the tree's pre-order nodes are exactly the visited entries' scans, so
  every directory node is `scanPure` of some `Entry.dir`;
* a directory whose enumeration succeeded in full carries the collected
  children `scanPureList es` and its size is exactly the sum of their
  sizes;
* a directory whose enumeration itself failed (`iterdir` raised) carries
  its own raw stat size and an empty children list;
* only `Entry.dir` entries produce nodes with `is_directory = true`. -/
theorem claim_C4_dir_size_invariant (e se : Entry) (p nm ext : String)
    (ssz : Nat) (mt : Int) (es : List Entry) :
    collect_items (scanPure e) = (allEntries e).map scanPure ∧
    (scanPure (.dir p nm ext ssz mt (some es))).size =
      sumSizes (scanPure (.dir p nm ext ssz mt (some es))).children ∧
    (scanPure (.dir p nm ext ssz mt (some es))).children = scanPureList es ∧
    (scanPure (.dir p nm ext ssz mt none)).size = ssz ∧
    (scanPure (.dir p nm ext ssz mt none)).children = [] ∧
    ((scanPure se).is_directory = true →
      ∃ p2 nm2 ext2 ssz2 mt2 listing,
        se = .dir p2 nm2 ext2 ssz2 mt2 listing) := by
  refine ⟨collect_scanPure e, ?_, ?_, ?_, ?_, ?_⟩
  · simp [scanPure, FileInfo.size, FileInfo.children]
  · simp [scanPure, FileInfo.children]
  · simp [scanPure, FileInfo.size]
  · simp [scanPure, FileInfo.children]
  · cases se with
    | statFail p2 nm2 => simp [scanPure, degradedNode, FileInfo.is_directory]
    | file p2 nm2 ext2 sz2 mt2 => simp [scanPure, FileInfo.is_directory]
    | dir p2 nm2 ext2 ssz2 mt2 listing =>
        intro h
        exact ⟨p2, nm2, ext2, ssz2, mt2, listing, rfl⟩

/-! ## Claim C5 (format_size) -/

/-- Invariant of `format_size`'s division loop: starting at `unit_index
= i` with `rem` allowed increments, the final index lies in
`[i, i + rem]`, any strictly increased index certifies `1024 ^ final ≤
size_bytes` (the guard held on the way), and the loop only stops with
the value below 1024 (`size_bytes < 1024 ^ (final + 1)`) unless the unit
list is exhausted (`final = i + rem`). -/
theorem fsIdxAux_spec (n : Nat) : ∀ (rem i : Nat),
    i ≤ fsIdxAux n i rem ∧ fsIdxAux n i rem ≤ i + rem ∧
    (fsIdxAux n i rem = i ∨ 1024 ^ fsIdxAux n i rem ≤ n) ∧
    (n < 1024 ^ (fsIdxAux n i rem + 1) ∨ fsIdxAux n i rem = i + rem) := by
  intro rem
  induction rem with
  | zero => intro i; simp [fsIdxAux]
  | succ m ih =>
      intro i
      by_cases h : 1024 ^ (i + 1) ≤ n
      · obtain ⟨h1, h2, h3, h4⟩ := ih (i + 1)
        rw [show fsIdxAux n i (m + 1) = fsIdxAux n (i + 1) m by
          simp [fsIdxAux, h]]
        refine ⟨by omega, by omega, ?_, ?_⟩
        · rcases h3 with h3 | h3
          · right; rw [h3]; exact h
          · right; exact h3
        · rcases h4 with h4 | h4
          · left; exact h4
          · right; omega
      · rw [show fsIdxAux n i (m + 1) = i by simp [fsIdxAux, h]]
        refine ⟨le_rfl, by omega, Or.inl rfl, Or.inl ?_⟩
        omega

/-- Claim C5.  `format_size` uses binary 1024-based units `B KB MB GB TB
PB`: `0 ↦ "0 B"`; a byte count that stays in the `B` unit is printed as
the bare integer; a scaled result is `⟨int⟩.⟨single digit⟩ ⟨unit⟩`
(exactly one decimal place, rounding half to even on the exact value
`n / 1024^i`); the loop stops as soon as the value is below 1024 or the
unit list is exhausted, and `PB` is the ceiling for arbitrarily large
inputs. -/
theorem claim_C5_format_size (n : Nat) :
    format_size 0 = "0 B" ∧
    format_size 512 = "512 B" ∧
    format_size 1024 = "1.0 KB" ∧
    format_size (1024 * 1024) = "1.0 MB" ∧
    format_size (1024 * 1024 * 1024) = "1.0 GB" ∧
    (0 < n → n < 1024 → format_size n = toString n ++ " B") ∧
    (1024 ≤ n →
      ∃ a d, d < 10 ∧
        format_size n =
          toString a ++ "." ++ toString d ++ " " ++ fsUnits.getD (fsIdx n) "" ∧
        a = roundHalfEven (n * 10) (1024 ^ fsIdx n) / 10 ∧
        d = roundHalfEven (n * 10) (1024 ^ fsIdx n) % 10 ∧
        1 ≤ fsIdx n ∧ fsIdx n ≤ 5 ∧ 1024 ^ fsIdx n ≤ n ∧
        (fsIdx n < 5 → n < 1024 ^ (fsIdx n + 1))) ∧
    (1024 ^ 5 ≤ n →
      fsIdx n = 5 ∧ format_size n = pyFormat1 n (1024 ^ 5) ++ " PB") := by
  obtain ⟨h1, h2, h3, h4⟩ := fsIdxAux_spec n 5 0
  have hfs : fsIdxAux n 0 5 = fsIdx n := rfl
  rw [hfs] at h1 h2 h3 h4
  refine ⟨rfl, rfl, rfl, rfl, rfl, ?_, ?_, ?_⟩
  · intro hpos hlt
    have hz : ¬ 1024 ≤ n := by omega
    have hi : fsIdx n = 0 := by simp [fsIdx, fsIdxAux, hz]
    have hne : ¬ n = 0 := by omega
    simp [format_size, hi, hne]
  · intro hge
    have hip : 1 ≤ fsIdx n := by
      rcases h4 with h4 | h4
      · by_contra hc
        have : fsIdx n = 0 := by omega
        rw [this] at h4
        simp at h4
        omega
      · omega
    have hne : ¬ n = 0 := by omega
    have hiz : ¬ fsIdx n = 0 := by omega
    refine ⟨roundHalfEven (n * 10) (1024 ^ fsIdx n) / 10,
      roundHalfEven (n * 10) (1024 ^ fsIdx n) % 10,
      Nat.mod_lt _ (by omega), ?_, rfl, rfl, hip, by omega, ?_, ?_⟩
    · simp [format_size, hne, hiz, pyFormat1]
    · rcases h3 with h3 | h3
      · omega
      · exact h3
    · intro hlt5
      rcases h4 with h4 | h4
      · exact h4
      · omega
  · intro hbig
    have hr5 : fsIdx n = 5 := by
      rcases h4 with h4 | h4
      · by_contra hc
        have hlt : fsIdx n + 1 ≤ 5 := by omega
        have : (1024 : Nat) ^ (fsIdx n + 1) ≤ 1024 ^ 5 :=
          Nat.pow_le_pow_right (by norm_num) hlt
        omega
      · omega
    have hne : ¬ n = 0 := by
      have : (0 : Nat) < 1024 ^ 5 := by norm_num
      omega
    refine ⟨hr5, ?_⟩
    simp [format_size, hne, hr5, fsUnits]
    rw [String.append_assoc]
    rfl

/-! ## Claims C6 and C10 (get_largest_items) -/

/-- `sizeDescLE` is transitive. -/
theorem sizeDescLE_trans (a b c : FileInfo) (h1 : sizeDescLE a b)
    (h2 : sizeDescLE b c) : sizeDescLE a c = true := by
  simp [sizeDescLE] at h1 h2 ⊢
  omega

/-- `sizeDescLE` is total. -/
theorem sizeDescLE_total (a b : FileInfo) :
    sizeDescLE a b || sizeDescLE b a := by
  simp [sizeDescLE]
  omega

/-- Claim C6.  For a non-negative count `n`, `get_largest_items` returns
`min n (node count)` nodes, sorted descending by size; directories and
files compete in one ranking (the single pre-order node list
`collect_items root` feeds the sort, and the sorted list is a
permutation of it); ties are broken by pre-order traversal position:
sorting the index-annotated node list with the same comparison yields
the same sequence, and in it two equal sizes always appear in increasing
index order (stability of the sort). -/
theorem claim_C6_largest_items (root : FileInfo) (n : Nat) :
    (get_largest_items root n).length =
      min n (collect_items root).length ∧
    (get_largest_items root n).Pairwise (fun a b => b.size ≤ a.size) ∧
    List.Perm ((collect_items root).mergeSort sizeDescLE)
      (collect_items root) ∧
    get_largest_items root n =
      (((collect_items root).enum.mergeSort (List.enumLE sizeDescLE)).map
        Prod.snd).take n ∧
    ((collect_items root).enum.mergeSort (List.enumLE sizeDescLE)).Pairwise
      (fun p q => q.2.size < p.2.size ∨
        (p.2.size = q.2.size ∧ p.1 ≤ q.1)) := by
  have htake : get_largest_items root (n : Int) =
      ((collect_items root).mergeSort sizeDescLE).take n := by
    simp [get_largest_items, pySlice]
  refine ⟨?_, ?_, List.mergeSort_perm _ _, ?_, ?_⟩
  · rw [htake]
    simp [List.length_take]
  · rw [htake]
    have hs : ((collect_items root).mergeSort sizeDescLE).Pairwise
        (fun a b => sizeDescLE a b = true) :=
      List.sorted_mergeSort sizeDescLE_trans sizeDescLE_total _
    have hp := hs.sublist (List.take_sublist n _)
    exact hp.imp (fun h => by simpa [sizeDescLE] using h)
  · rw [htake, List.mergeSort_enum]
  · have hs := List.sorted_mergeSort
      (List.enumLE_trans sizeDescLE_trans)
      (List.enumLE_total sizeDescLE_total)
      (collect_items root).enum
    refine hs.imp ?_
    intro p q h
    simp only [List.enumLE, sizeDescLE] at h
    by_cases h1 : q.2.size ≤ p.2.size
    · by_cases h2 : p.2.size ≤ q.2.size
      · simp [h1, h2] at h
        right
        omega
      · left; omega
    · simp [h1] at h

/-- Claim C10.  At the public interface `count` is a Python `int`:
`get_largest_items(root, 0)` is the empty list, and a negative count `n`
slices off the last `|n|` elements of the descending-sorted node list,
leaving `max 0 (totalNodeCount + n)` items; the familiar
`min n (totalNodeCount)` length formula holds exactly when `0 ≤ n`. -/
theorem claim_C10_negative_count (root : FileInfo) (n : Int) :
    get_largest_items root 0 = [] ∧
    (n < 0 → get_largest_items root n =
      ((collect_items root).mergeSort sizeDescLE).take
        ((collect_items root).length - n.natAbs)) ∧
    (n < 0 → ((get_largest_items root n).length : Int) =
      max 0 (((collect_items root).length : Int) + n)) ∧
    (0 ≤ n → (get_largest_items root n).length =
      min n.toNat (collect_items root).length) := by
  refine ⟨?_, ?_, ?_, ?_⟩
  · simp [get_largest_items, pySlice]
  · intro h
    have hn : ¬ (0 : Int) ≤ n := by omega
    simp [get_largest_items, pySlice, hn]
  · intro h
    have hn : ¬ (0 : Int) ≤ n := by omega
    simp [get_largest_items, pySlice, hn, List.length_take]
    omega
  · intro h
    simp [get_largest_items, pySlice, h, List.length_take]

/-! ## Claim C7 (get_file_type_stats) -/

/-- The leaves (non-directory nodes) of a tree, in pre-order. -/
def leavesOf (root : FileInfo) : List FileInfo :=
  (collect_items root).filter (fun i => !i.is_directory)

/-- One leaf's dict update inside `collect_stats` (analyzer.py lines
182-186). -/
def statStep (acc : List Bucket) (i : FileInfo) : List Bucket :=
  addStat acc (bucketName i) i.size

/-- Sum of the `count` fields over all buckets. -/
def bucketsCnt (stats : List Bucket) : Nat :=
  (stats.map Bucket.cnt).sum

/-- Sum of the `size` fields over all buckets. -/
def bucketsSz (stats : List Bucket) : Nat :=
  (stats.map Bucket.sz).sum

/-- Total `count` recorded under one dict key. -/
def keyCnt (key : String) (stats : List Bucket) : Nat :=
  ((stats.filter (fun b => b.ext = key)).map Bucket.cnt).sum

/-- Total `size` recorded under one dict key. -/
def keySz (key : String) (stats : List Bucket) : Nat :=
  ((stats.filter (fun b => b.ext = key)).map Bucket.sz).sum

mutual

/-- `collect_stats` is the fold of the per-leaf dict update over the
pre-order leaves: directories contribute nothing, every non-directory
node contributes once, in traversal order. -/
theorem collect_stats_eq (acc : List Bucket) (i : FileInfo) :
    collect_stats acc i = (leavesOf i).foldl statStep acc := by
  cases i with
  | mk p n s d e m cs =>
      have ih := collect_statsL_eq cs
      cases d with
      | true =>
          simp [collect_stats, leavesOf, collect_items, FileInfo.is_directory,
            List.filter, ih]
      | false =>
          simp [collect_stats, leavesOf, collect_items, FileInfo.is_directory,
            FileInfo.size, List.filter, ih, statStep]
termination_by sizeOf i

/-- List version of `collect_stats_eq`. -/
theorem collect_statsL_eq (cs : List FileInfo) : ∀ (acc : List Bucket),
    collect_statsL acc cs =
      ((collect_itemsL cs).filter (fun i => !i.is_directory)).foldl
        statStep acc := by
  cases cs with
  | nil => intro acc; simp [collect_statsL, collect_itemsL]
  | cons c rest =>
      intro acc
      have ihc := collect_stats_eq acc c
      have ihr := collect_statsL_eq rest
      simp [collect_statsL, collect_itemsL, List.filter_append,
        List.foldl_append, ihc, ihr, leavesOf]
termination_by sizeOf cs

end

/-- `addStat` adds one to the count recorded under the updated key and
leaves every other key's count unchanged. -/
theorem keyCnt_addStat (stats : List Bucket) (ext key : String) (sz : Nat) :
    keyCnt key (addStat stats ext sz) =
      keyCnt key stats + (if ext = key then 1 else 0) := by
  induction stats with
  | nil => by_cases h : ext = key <;> simp [addStat, keyCnt, h]
  | cons b rest ih =>
      by_cases hb : b.ext = ext
      · subst hb
        have hrw : addStat (b :: rest) b.ext sz =
            ⟨b.ext, b.cnt + 1, b.sz + sz⟩ :: rest := by simp [addStat]
        rw [hrw]
        by_cases hk : b.ext = key
        · simp [keyCnt, List.filter_cons, hk]
          omega
        · simp [keyCnt, List.filter_cons, hk]
      · have hrw : addStat (b :: rest) ext sz = b :: addStat rest ext sz := by
          simp [addStat, hb]
        rw [hrw]
        by_cases hk : b.ext = key
        · simp [keyCnt, List.filter_cons, hk] at ih ⊢
          omega
        · simp [keyCnt, List.filter_cons, hk] at ih ⊢
          omega

/-- `addStat` adds the leaf's size under the updated key and leaves
every other key's size unchanged. -/
theorem keySz_addStat (stats : List Bucket) (ext key : String) (sz : Nat) :
    keySz key (addStat stats ext sz) =
      keySz key stats + (if ext = key then sz else 0) := by
  induction stats with
  | nil => by_cases h : ext = key <;> simp [addStat, keySz, h]
  | cons b rest ih =>
      by_cases hb : b.ext = ext
      · subst hb
        have hrw : addStat (b :: rest) b.ext sz =
            ⟨b.ext, b.cnt + 1, b.sz + sz⟩ :: rest := by simp [addStat]
        rw [hrw]
        by_cases hk : b.ext = key
        · simp [keySz, List.filter_cons, hk]
          omega
        · simp [keySz, List.filter_cons, hk]
      · have hrw : addStat (b :: rest) ext sz = b :: addStat rest ext sz := by
          simp [addStat, hb]
        rw [hrw]
        by_cases hk : b.ext = key
        · simp [keySz, List.filter_cons, hk] at ih ⊢
          omega
        · simp [keySz, List.filter_cons, hk] at ih ⊢
          omega

/-- `addStat` increases the grand total of counts by exactly one. -/
theorem bucketsCnt_addStat (stats : List Bucket) (ext : String) (sz : Nat) :
    bucketsCnt (addStat stats ext sz) = bucketsCnt stats + 1 := by
  induction stats with
  | nil => simp [addStat, bucketsCnt]
  | cons b rest ih =>
      by_cases hb : b.ext = ext
      · subst hb
        have hrw : addStat (b :: rest) b.ext sz =
            ⟨b.ext, b.cnt + 1, b.sz + sz⟩ :: rest := by simp [addStat]
        rw [hrw]
        simp [bucketsCnt]
        omega
      · have hrw : addStat (b :: rest) ext sz = b :: addStat rest ext sz := by
          simp [addStat, hb]
        rw [hrw]
        simp [bucketsCnt] at ih ⊢
        omega

/-- `addStat` increases the grand total of sizes by exactly the added
size. -/
theorem bucketsSz_addStat (stats : List Bucket) (ext : String) (sz : Nat) :
    bucketsSz (addStat stats ext sz) = bucketsSz stats + sz := by
  induction stats with
  | nil => simp [addStat, bucketsSz]
  | cons b rest ih =>
      by_cases hb : b.ext = ext
      · subst hb
        have hrw : addStat (b :: rest) b.ext sz =
            ⟨b.ext, b.cnt + 1, b.sz + sz⟩ :: rest := by simp [addStat]
        rw [hrw]
        simp [bucketsSz]
        omega
      · have hrw : addStat (b :: rest) ext sz = b :: addStat rest ext sz := by
          simp [addStat, hb]
        rw [hrw]
        simp [bucketsSz] at ih ⊢
        omega

/-- The keys present after `addStat` are the old keys plus the updated
one. -/
theorem mem_addStat (stats : List Bucket) (ext key : String) (sz : Nat) :
    (∃ b ∈ addStat stats ext sz, b.ext = key) ↔
      (∃ b ∈ stats, b.ext = key) ∨ ext = key := by
  induction stats with
  | nil => simp [addStat]
  | cons b rest ih =>
      by_cases hb : b.ext = ext
      · subst hb
        have hrw : addStat (b :: rest) b.ext sz =
            ⟨b.ext, b.cnt + 1, b.sz + sz⟩ :: rest := by simp [addStat]
        rw [hrw]
        simp
        tauto
      · have hrw : addStat (b :: rest) ext sz = b :: addStat rest ext sz := by
          simp [addStat, hb]
        rw [hrw]
        constructor
        · rintro ⟨c, hc, he⟩
          rcases List.mem_cons.mp hc with rfl | hc2
          · exact Or.inl ⟨c, List.mem_cons_self _ _, he⟩
          · rcases ih.mp ⟨c, hc2, he⟩ with ⟨d, hd, hde⟩ | h
            · exact Or.inl ⟨d, List.mem_cons_of_mem _ hd, hde⟩
            · exact Or.inr h
        · rintro (⟨c, hc, he⟩ | h)
          · rcases List.mem_cons.mp hc with rfl | hc2
            · exact ⟨c, List.mem_cons_self _ _, he⟩
            · rcases ih.mpr (Or.inl ⟨c, hc2, he⟩) with ⟨d, hd, hde⟩
              exact ⟨d, List.mem_cons_of_mem _ hd, hde⟩
          · rcases ih.mpr (Or.inr h) with ⟨d, hd, hde⟩
            exact ⟨d, List.mem_cons_of_mem _ hd, hde⟩

/-- Folding the dict update over a leaf list: each key's count grows by
the number of leaves bucketed to it. -/
theorem keyCnt_fold (ls : List FileInfo) : ∀ (acc : List Bucket)
    (key : String),
    keyCnt key (ls.foldl statStep acc) =
      keyCnt key acc + (ls.filter (fun i => bucketName i = key)).length := by
  induction ls with
  | nil => intro acc key; simp
  | cons i rest ih =>
      intro acc key
      have h1 := keyCnt_addStat acc (bucketName i) key i.size
      rw [List.foldl_cons,
        show statStep acc i = addStat acc (bucketName i) i.size from rfl,
        ih, h1]
      by_cases hk : bucketName i = key
      · simp [List.filter_cons, hk]
        omega
      · simp [List.filter_cons, hk]

/-- Folding the dict update over a leaf list: each key's size grows by
the total size of the leaves bucketed to it. -/
theorem keySz_fold (ls : List FileInfo) : ∀ (acc : List Bucket)
    (key : String),
    keySz key (ls.foldl statStep acc) =
      keySz key acc +
        ((ls.filter (fun i => bucketName i = key)).map FileInfo.size).sum := by
  induction ls with
  | nil => intro acc key; simp
  | cons i rest ih =>
      intro acc key
      have h1 := keySz_addStat acc (bucketName i) key i.size
      rw [List.foldl_cons,
        show statStep acc i = addStat acc (bucketName i) i.size from rfl,
        ih, h1]
      by_cases hk : bucketName i = key
      · simp [List.filter_cons, hk]
        omega
      · simp [List.filter_cons, hk]

/-- Folding the dict update over a leaf list adds one to the grand count
per leaf. -/
theorem bucketsCnt_fold (ls : List FileInfo) : ∀ (acc : List Bucket),
    bucketsCnt (ls.foldl statStep acc) = bucketsCnt acc + ls.length := by
  induction ls with
  | nil => intro acc; simp
  | cons i rest ih =>
      intro acc
      have h1 := bucketsCnt_addStat acc (bucketName i) i.size
      simp [statStep, ih, h1]
      omega

/-- Folding the dict update over a leaf list adds each leaf's size to
the grand total. -/
theorem bucketsSz_fold (ls : List FileInfo) : ∀ (acc : List Bucket),
    bucketsSz (ls.foldl statStep acc) =
      bucketsSz acc + (ls.map FileInfo.size).sum := by
  induction ls with
  | nil => intro acc; simp
  | cons i rest ih =>
      intro acc
      have h1 := bucketsSz_addStat acc (bucketName i) i.size
      simp [statStep, ih, h1]
      omega

/-- The keys present after the fold are the accumulator's keys plus the
leaves' bucket names. -/
theorem mem_fold (ls : List FileInfo) : ∀ (acc : List Bucket)
    (key : String),
    (∃ b ∈ ls.foldl statStep acc, b.ext = key) ↔
      (∃ b ∈ acc, b.ext = key) ∨ ∃ i ∈ ls, bucketName i = key := by
  induction ls with
  | nil => intro acc key; simp
  | cons i rest ih =>
      intro acc key
      have h1 := mem_addStat acc (bucketName i) key i.size
      rw [List.foldl_cons]
      rw [show statStep acc i = addStat acc (bucketName i) i.size from rfl]
      rw [ih, h1]
      constructor
      · rintro ((h | h) | h)
        · exact Or.inl h
        · exact Or.inr ⟨i, by simp, h⟩
        · rcases h with ⟨j, hj, hjk⟩
          exact Or.inr ⟨j, by simp [hj], hjk⟩
      · rintro (h | h)
        · exact Or.inl (Or.inl h)
        · rcases h with ⟨j, hj, hjk⟩
          rcases List.mem_cons.mp hj with rfl | hj2
          · exact Or.inl (Or.inr hjk)
          · exact Or.inr ⟨j, hj2, hjk⟩

/-- `bucketDescLE` is transitive. -/
theorem bucketDescLE_trans (a b c : Bucket) (h1 : bucketDescLE a b)
    (h2 : bucketDescLE b c) : bucketDescLE a c = true := by
  simp [bucketDescLE] at h1 h2 ⊢
  omega

/-- `bucketDescLE` is total. -/
theorem bucketDescLE_total (a b : Bucket) :
    bucketDescLE a b || bucketDescLE b a := by
  simp [bucketDescLE]
  omega

/-- Permutations preserve per-key counts. -/
theorem keyCnt_perm (l1 l2 : List Bucket) (key : String)
    (h : List.Perm l1 l2) : keyCnt key l1 = keyCnt key l2 :=
  ((h.filter _).map Bucket.cnt).sum_eq

/-- Permutations preserve per-key sizes. -/
theorem keySz_perm (l1 l2 : List Bucket) (key : String)
    (h : List.Perm l1 l2) : keySz key l1 = keySz key l2 :=
  ((h.filter _).map Bucket.sz).sum_eq

/-- Permutations preserve the grand count. -/
theorem bucketsCnt_perm (l1 l2 : List Bucket) (h : List.Perm l1 l2) :
    bucketsCnt l1 = bucketsCnt l2 :=
  (h.map Bucket.cnt).sum_eq

/-- Permutations preserve the grand size. -/
theorem bucketsSz_perm (l1 l2 : List Bucket) (h : List.Perm l1 l2) :
    bucketsSz l1 = bucketsSz l2 :=
  (h.map Bucket.sz).sum_eq

/-- Claim C7.  `get_file_type_stats` visits the tree in pre-order
(`leavesOf root` filters the pre-order node list `collect_items root`),
counts only non-directory nodes, buckets an empty extension under the
explicit `"No extension"` key (`bucketName`), and returns the buckets
sorted descending by total size, ties kept in traversal/insertion order
(stability via the index-annotated sort).  Each key's count/size is
exactly the number/total size of the leaves bucketed to it; the bucket
counts sum to the leaf count and the bucket sizes sum to the total leaf
size. -/
theorem claim_C7_file_type_stats (root : FileInfo) (key : String) :
    get_file_type_stats root =
      ((collect_stats [] root).enum.mergeSort
        (List.enumLE bucketDescLE)).map Prod.snd ∧
    List.Perm (get_file_type_stats root) (collect_stats [] root) ∧
    collect_stats [] root = (leavesOf root).foldl statStep [] ∧
    (get_file_type_stats root).Pairwise (fun a b => b.sz ≤ a.sz) ∧
    ((collect_stats [] root).enum.mergeSort
        (List.enumLE bucketDescLE)).Pairwise
      (fun p q => q.2.sz < p.2.sz ∨ (p.2.sz = q.2.sz ∧ p.1 ≤ q.1)) ∧
    keyCnt key (get_file_type_stats root) =
      ((leavesOf root).filter (fun i => bucketName i = key)).length ∧
    keySz key (get_file_type_stats root) =
      (((leavesOf root).filter (fun i => bucketName i = key)).map
        FileInfo.size).sum ∧
    bucketsCnt (get_file_type_stats root) = (leavesOf root).length ∧
    bucketsSz (get_file_type_stats root) =
      ((leavesOf root).map FileInfo.size).sum ∧
    ((∃ b ∈ get_file_type_stats root, b.ext = key) ↔
      ∃ i ∈ leavesOf root, bucketName i = key) := by
  have hbase : collect_stats [] root = (leavesOf root).foldl statStep [] :=
    collect_stats_eq [] root
  have hperm : List.Perm (get_file_type_stats root) (collect_stats [] root) :=
    List.mergeSort_perm _ _
  refine ⟨?_, hperm, hbase, ?_, ?_, ?_, ?_, ?_, ?_, ?_⟩
  · rw [get_file_type_stats, List.mergeSort_enum]
  · exact (List.sorted_mergeSort bucketDescLE_trans bucketDescLE_total
      _).imp (fun h => by simpa [bucketDescLE] using h)
  · refine (List.sorted_mergeSort
      (List.enumLE_trans bucketDescLE_trans)
      (List.enumLE_total bucketDescLE_total)
      (collect_stats [] root).enum).imp ?_
    intro p q h
    simp only [List.enumLE, bucketDescLE] at h
    by_cases h1 : q.2.sz ≤ p.2.sz
    · by_cases h2 : p.2.sz ≤ q.2.sz
      · simp [h1, h2] at h
        right
        omega
      · left; omega
    · simp [h1] at h
  · rw [keyCnt_perm _ _ key hperm, hbase, keyCnt_fold]
    simp [keyCnt]
  · rw [keySz_perm _ _ key hperm, hbase, keySz_fold]
    simp [keySz]
  · rw [bucketsCnt_perm _ _ hperm, hbase, bucketsCnt_fold]
    simp [bucketsCnt]
  · rw [bucketsSz_perm _ _ hperm, hbase, bucketsSz_fold]
    simp [bucketsSz]
  · constructor
    · rintro ⟨b, hb, he⟩
      have hb2 : b ∈ collect_stats [] root := hperm.mem_iff.mp hb
      rw [hbase] at hb2
      rcases (mem_fold (leavesOf root) [] key).mp ⟨b, hb2, he⟩ with h | h
      · simp at h
      · exact h
    · intro h
      rcases (mem_fold (leavesOf root) [] key).mpr (Or.inr h) with ⟨b, hb, he⟩
      rw [← hbase] at hb
      exact ⟨b, hperm.mem_iff.mpr hb, he⟩

/-! ## Claim C8 (file-type CSV percentage column) -/

/-- Claim C8.  In the file-type CSV every row's percentage cell is
`percentage_cell` of the bucket size and the tree's total size
(`root_info.size`); when the total is 0 the cell shows the value 0
formatted to two decimals (`"0.00%"`); when the total is positive it is
the exact ratio `size/total*100` formatted to two decimal places; in
every case the cell is `⟨int⟩.⟨two digits⟩%`. -/
theorem claim_C8_percentage_column (root : FileInfo) (sz total : Nat) :
    (∀ row ∈ export_file_types_rows root,
       row.pct = percentage_cell row.sz root.size) ∧
    (total = 0 → percentage_cell sz total = "0.00%") ∧
    (0 < total →
      percentage_cell sz total = pyFormat2 (sz * 100) total ++ "%") ∧
    (∃ (a r : Nat), r < 100 ∧
      percentage_cell sz total = toString a ++ "." ++ pad2 r ++ "%") := by
  refine ⟨?_, ?_, ?_, ?_⟩
  · intro row hrow
    simp only [export_file_types_rows, List.mem_map] at hrow
    rcases hrow with ⟨b, hb, rfl⟩
    rfl
  · intro h
    subst h
    rfl
  · intro h
    simp [percentage_cell, h]
  · by_cases h : 0 < total
    · refine ⟨roundHalfEven (sz * 100 * 100) total / 100,
        roundHalfEven (sz * 100 * 100) total % 100,
        Nat.mod_lt _ (by omega), ?_⟩
      simp [percentage_cell, h, pyFormat2]
    · have h0 : total = 0 := by omega
      subst h0
      exact ⟨0, 0, by omega, rfl⟩

/-! ## Claim C9 (Aggregator/Exporter calls do not mutate the tree) -/

/-- One Aggregator/Exporter call leaves the tree untouched. -/
theorem runCall_eq (c : CoreCall) (t : FileInfo) : runCall c t = t := by
  cases c <;> rfl

/-- Claim C9.  Any number of Aggregator (`get_file_type_stats`,
`get_largest_items`) and Exporter (JSON report, flat CSV, file-type CSV,
largest-items CSV) calls, in any order, leave the completed tree
identical: the tree after the calls is the tree before them, and hence
every node's `path`, `name`, `size`, `is_directory`, `extension`,
`modified_time` and `children` are unchanged. -/
theorem claim_C9_read_only (t : FileInfo) (calls : List CoreCall) :
    calls.foldl (fun s c => runCall c s) t = t ∧
    (∀ c, runCall c t = t) ∧
    (collect_items (calls.foldl (fun s c => runCall c s) t)).map
        (fun i => (i.path, i.fname, i.size, i.is_directory, i.extension,
          i.modified_time, i.children)) =
      (collect_items t).map
        (fun i => (i.path, i.fname, i.size, i.is_directory, i.extension,
          i.modified_time, i.children)) := by
  have hfold : ∀ (cs : List CoreCall) (s : FileInfo),
      cs.foldl (fun s c => runCall c s) s = s := by
    intro cs
    induction cs with
    | nil => intro s; rfl
    | cons c rest ih => intro s; rw [List.foldl_cons, runCall_eq, ih]
  refine ⟨hfold calls t, fun c => runCall_eq c t, ?_⟩
  rw [hfold calls t]

/-! ## A concrete end-to-end scenario

The scenario of the specification's testable properties: a root holding
`a.txt` (1024 bytes) and a subdirectory `sub` holding `b.py` (2048
bytes).  These closed equations exercise the whole pipeline on concrete
data (sizes roll up, stats bucket and sort, equal sizes keep pre-order
position, format and percentage render). -/

/-- The scenario filesystem. -/
def scenarioEntry : Entry :=
  .dir "/root" "root" "" 4096 0 (some
    [.file "/root/a.txt" "a.txt" ".txt" 1024 0,
     .dir "/root/sub" "sub" "" 4096 0 (some
       [.file "/root/sub/b.py" "b.py" ".py" 2048 0])])

/-- The scenario's tree and analytics, computed by the model. -/
theorem model_scenario :
    (scanPure scenarioEntry).size = 3072 ∧
    collect_stats [] (scanPure scenarioEntry) =
      [⟨".txt", 1, 1024⟩, ⟨".py", 1, 2048⟩] ∧
    get_file_type_stats (scanPure scenarioEntry) =
      [⟨".py", 1, 2048⟩, ⟨".txt", 1, 1024⟩] ∧
    format_size (scanPure scenarioEntry).size = "3.0 KB" ∧
    percentage_cell 2048 3072 = "66.67%" ∧
    (collect_items (scanPure scenarioEntry)).map FileInfo.size =
      [3072, 1024, 2048, 2048] ∧
    (get_largest_items (scanPure scenarioEntry) 3).map FileInfo.fname =
      ["root", "sub", "b.py"] := by
  have hstats : collect_stats [] (scanPure scenarioEntry) =
      [⟨".txt", 1, 1024⟩, ⟨".py", 1, 2048⟩] := rfl
  have hsort : get_file_type_stats (scanPure scenarioEntry) =
      [⟨".py", 1, 2048⟩, ⟨".txt", 1, 1024⟩] := by
    rw [get_file_type_stats, hstats]
    simp [List.mergeSort, bucketDescLE]
  have hcoll : collect_items (scanPure scenarioEntry) =
      [scanPure scenarioEntry,
       .mk "/root/a.txt" "a.txt" 1024 false ".txt" 0 [],
       .mk "/root/sub" "sub" 2048 true "" 0
         [.mk "/root/sub/b.py" "b.py" 2048 false ".py" 0 []],
       .mk "/root/sub/b.py" "b.py" 2048 false ".py" 0 []] := rfl
  have hlarge : (get_largest_items (scanPure scenarioEntry) 3).map
      FileInfo.fname = ["root", "sub", "b.py"] := by
    rw [get_largest_items, pySlice, hcoll]
    simp [List.mergeSort, List.merge, sizeDescLE, scenarioEntry, scanPure,
      scanPureList, sumSizes, FileInfo.size, FileInfo.fname, pyName]
  exact ⟨rfl, hstats, hsort, rfl, rfl, by rw [hcoll]; rfl, hlarge⟩
